import Mathlib

/-!
Verification of the OgiveSim core (src/app.py): histogram binning, ascending
and descending cumulative ("ogive") curves, the frequency table, and the two
numpy linear-interpolation wrappers.  numpy float arrays are modeled as lists
of rationals, so every arithmetic step of the source is exact here.  A Python
exception is modeled as `Option.none` at the function level; a non-finite
float entry (NaN) produced by an unguarded division is modeled as a `none`
entry inside a list (see `npDiv`).
-/

namespace OgiveSim

/-- Running sums, as numpy `cumsum`: entry `i` is the sum of the first `i + 1`
elements. -/
def cumsum (l : List ℕ) : List ℕ :=
  (List.range l.length).map (fun i => (l.take (i + 1)).sum)

/-- Model of a numpy float division with finite operands: the exact rational
quotient when the divisor is nonzero, `none` (a non-finite float) when the
divisor is zero.  numpy emits a warning and the non-finite value there; it
does not raise. -/
def npDiv (a b : ℚ) : Option ℚ := if b = 0 then none else some (a / b)

/-- numpy `_get_outer_edges` with an explicit `range=(mn, mx)`: a degenerate
range is widened by 0.5 on each side. -/
def outerEdges (mn mx : ℚ) : ℚ × ℚ :=
  if mn = mx then (mn - 1/2, mx + 1/2) else (mn, mx)

/-- Bin index used by numpy `histogram` with `k` equal-width bins over
`[lo, hi]`: the integer part of `(v - lo) * k / (hi - lo)`, with an index of
`k` (only possible for `v = hi`) folded into the last bin, as numpy does.  In
exact rational arithmetic numpy's float-rounding correction steps are
identities, and for the in-range values this is applied to the integer part
is the floor. -/
def binIndex (lo hi : ℚ) (k : ℕ) (v : ℚ) : ℕ :=
  min ((v - lo) * (k : ℚ) / (hi - lo)).floor.toNat (k - 1)

/-- Bin counts of numpy `histogram(values, bins=k, range=(lo, hi))`: values
outside `[lo, hi]` are discarded, each kept value is counted in its bin. -/
def histCounts (lo hi : ℚ) (k : ℕ) (values : List ℚ) : List ℕ :=
  let kept := values.filter (fun v => decide (lo ≤ v) && decide (v ≤ hi))
  (List.range k).map (fun i => kept.countP (fun v => binIndex lo hi k v == i))

/-- Bin edges of numpy `histogram`: `linspace lo hi (k + 1)`, so
`edge i = lo + i * ((hi - lo) / k)`. -/
def histEdges (lo hi : ℚ) (k : ℕ) : List ℚ :=
  (List.range (k + 1)).map (fun (i : ℕ) => lo + (i : ℚ) * ((hi - lo) / k))

/-- Model of `ogive(values, bins)` from src/app.py.  `none` models the Python
exceptions: `values.min()` on an empty array raises, and `np.histogram` with
`bins=0` raises.  The percentage normalization divides by `cum_counts[-1]`;
for every result this function returns, that denominator equals the sample
length, which is positive (`ogive_counts_sum` below), so the plain rational
division here is the exact value of the float division in the source. -/
def ogive (values : List ℚ) (bins : ℕ) :
    Option (List ℚ × List ℚ × List ℚ × List ℕ) :=
  match values.min?, values.max? with
  | some mn, some mx =>
    if bins = 0 then none
    else
      let lo := (outerEdges mn mx).1
      let hi := (outerEdges mn mx).2
      let edges := histEdges lo hi bins
      let counts := histCounts lo hi bins values
      let cum_counts := cumsum counts
      let cum_pct := cum_counts.map
        (fun (c : ℕ) => 100 * (c : ℚ) / ((cum_counts.getLastD 0 : ℕ) : ℚ))
      let x_plot := edges.headD 0 :: edges.tail
      let y_plot := (0 : ℚ) :: cum_pct
      some (x_plot, y_plot, edges, counts)
  | _, _ => none

/-- Model of `numpy.interp` (`compiled_interp`): `none` models the raise on
an empty or length-mismatched table; a key above `xp[-1]` or below `xp[0]`
is clamped to the corresponding end value of `fp` (numpy tests the upper end
first); otherwise the segment index is looked up and the segment is linearly
interpolated, an exact hit on the left node returning the node value.  The
index search is modeled as the length of the maximal prefix of entries
`≤ x`, which is what numpy's binary search returns on the sorted tables this
program builds; numpy documents the in-range result on an unsorted table as
nonsense, and the claims reach unsorted tables only through the clamping
branches, which are modeled exactly. -/
def np_interp (x : ℚ) (xp fp : List ℚ) : Option ℚ :=
  if xp.length = 0 ∨ fp.length ≠ xp.length then none
  else if xp.getLastD 0 < x then some (fp.getLastD 0)
  else if x < xp.headD 0 then some (fp.headD 0)
  else
    let j := (xp.takeWhile (fun t => decide (t ≤ x))).length - 1
    if j = xp.length - 1 then some (fp.getD j 0)
    else if xp.getD j 0 = x then some (fp.getD j 0)
    else some (fp.getD j 0 +
      (fp.getD (j + 1) 0 - fp.getD j 0) * (x - xp.getD j 0) /
        (xp.getD (j + 1) 0 - xp.getD j 0))

/-- Model of `interp_percentile_at(value, x_plot, y_plot)`. -/
def interp_percentile_at (value : ℚ) (x_plot y_plot : List ℚ) : Option ℚ :=
  np_interp value x_plot y_plot

/-- Model of `interp_value_at(percentile, x_plot, y_plot)`: the y-axis is the
lookup table, the x-axis the value table. -/
def interp_value_at (percentile : ℚ) (x_plot y_plot : List ℚ) : Option ℚ :=
  np_interp percentile y_plot x_plot

/-- Model of `ogive_inverse(counts, edges)`: `none` models the IndexError on
`rev_cum[0]` (empty counts) or `edges[-1]` (empty edges); a `none` entry in
the returned y-list is a non-finite float from the unguarded normalization
(`npDiv`). -/
def ogive_inverse (counts : List ℕ) (edges : List ℚ) :
    Option (List ℚ × List (Option ℚ)) :=
  if counts.isEmpty ∨ edges.isEmpty then none
  else
    let rev_cum := (cumsum counts.reverse).reverse
    let y_gt_core := rev_cum.map
      (fun (c : ℕ) => npDiv (100 * (c : ℚ)) ((rev_cum.headD 0 : ℕ) : ℚ))
    let x_gt := edges.dropLast ++ [edges.getLastD 0]
    let y_gt := y_gt_core ++ [some 0]
    some (x_gt, y_gt)

/-- Round half to even, as numpy rounding. -/
def roundHalfEven (x : ℚ) : ℤ :=
  let f := x.floor
  if x - f < 1/2 then f
  else if 1/2 < x - f then f + 1
  else if f % 2 = 0 then f else f + 1

/-- numpy `round(x, 2)`: round half to even at two decimal places. -/
def np_round2 (x : ℚ) : ℚ := (roundHalfEven (x * 100) : ℚ) / 100

/-- Python `f"{x:.2f}"` formatting used in the interval labels. -/
def fmt2 (x : ℚ) : String :=
  let r := roundHalfEven (x * 100)
  let a := r.natAbs
  (if r < 0 then "-" else "") ++ toString (a / 100) ++ "." ++
    (if a % 100 < 10 then "0" else "") ++ toString (a % 100)

/-- The columns of the DataFrame built by `frequency_table`, in source
order: interval label, count, relative frequency (rounded), cumulative
count, percent of total (the source reuses the rounded relative column),
cumulative percent (rounded). -/
structure FreqTable where
  intervalo : List String
  frecuencia : List ℕ
  frecuenciaRelativa : List ℚ
  frecuenciaAcumulada : List ℕ
  delTotal : List ℚ
  acumulado : List ℚ
  deriving DecidableEq, Repr

/-- The interval label column: `[lo, hi)` for consecutive edge pairs, the
last label patched to close its right end, exactly as the source's string
slice does. -/
def intervalLabels (edges : List ℚ) : List String :=
  let base := (edges.dropLast.zip edges.tail).map
    (fun p => "[" ++ fmt2 p.1 ++ ", " ++ fmt2 p.2 ++ ")")
  if base.isEmpty then base
  else base.dropLast ++ [(base.getLastD "").dropRight 1 ++ "]"]

/-- Model of `frequency_table(values, edges, counts)`.  The `values` argument
is never read, exactly as in the source.  `none` models the pandas DataFrame
constructor raising when columns have different lengths.  The divisions are
by `counts.sum()`, which is positive for every binner-produced input the
claims consider; a zero sum would give non-finite entries in numpy rather
than an exception, and which value stands in for them cannot affect any
claim about this function. -/
def frequency_table (values : List ℚ) (edges : List ℚ) (counts : List ℕ) :
    Option FreqTable :=
  let total := counts.sum
  let rel_freq := counts.map (fun (c : ℕ) => (c : ℚ) / (total : ℚ) * 100)
  let cum_freq := cumsum counts
  let pct := rel_freq.map np_round2
  let pct_acum := cum_freq.map (fun (c : ℕ) => (c : ℚ) / (total : ℚ) * 100)
  let intervalos := intervalLabels edges
  if intervalos.length = counts.length then
    some ⟨intervalos, counts, pct, cum_freq, pct, pct_acum.map np_round2⟩
  else none

/-- Spec-side reference for `percentileToValue` on a descending curve: the
non-increasing table is reversed before the standard ascending lookup, as
section 4.3 of the spec directs. -/
def interp_value_at_desc (percentile : ℚ) (x_plot y_plot : List ℚ) : Option ℚ :=
  np_interp percentile y_plot.reverse x_plot.reverse

section Proofs

/- Batteries marks the rational field operations irreducible; the concrete
evaluations below need them unfolded. -/
attribute [local semireducible] Rat.add Rat.mul Rat.sub Rat.inv

/-- Specification of `List.min?` on `ℚ`: it is a member and a lower bound. -/
lemma min?_spec {l : List ℚ} {a : ℚ} (h : l.min? = some a) :
    a ∈ l ∧ ∀ b ∈ l, a ≤ b :=
  ⟨List.min?_mem (fun _ _ => min_choice _ _) h,
   fun b hb => (List.le_min?_iff (fun _ _ _ => le_min_iff) h).1 le_rfl b hb⟩

/-- Specification of `List.max?` on `ℚ`: it is a member and an upper bound. -/
lemma max?_spec {l : List ℚ} {a : ℚ} (h : l.max? = some a) :
    a ∈ l ∧ ∀ b ∈ l, b ≤ a :=
  ⟨List.max?_mem (fun _ _ => max_choice _ _) h,
   fun b hb => (List.max?_le_iff (fun _ _ _ => max_le_iff) h).1 le_rfl b hb⟩

/-- Unfolding `ogive` when the sample has a minimum and a maximum and the bin
count is positive. -/
lemma ogive_eq_some {values : List ℚ} (bins : ℕ) {mn mx : ℚ}
    (hmn : values.min? = some mn) (hmx : values.max? = some mx)
    (hb : bins ≠ 0) :
    ogive values bins =
      some ((histEdges (outerEdges mn mx).1 (outerEdges mn mx).2 bins).headD 0
              :: (histEdges (outerEdges mn mx).1 (outerEdges mn mx).2 bins).tail,
            (0 : ℚ) ::
              (cumsum (histCounts (outerEdges mn mx).1 (outerEdges mn mx).2 bins values)).map
                (fun (c : ℕ) => 100 * (c : ℚ) /
                  (((cumsum (histCounts (outerEdges mn mx).1 (outerEdges mn mx).2
                      bins values)).getLastD 0 : ℕ) : ℚ)),
            histEdges (outerEdges mn mx).1 (outerEdges mn mx).2 bins,
            histCounts (outerEdges mn mx).1 (outerEdges mn mx).2 bins values) := by
  unfold ogive
  rw [hmn, hmx]
  simp [hb]

/-- Inversion of a successful `ogive` call into its components. -/
lemma ogive_some_inv {values : List ℚ} {bins : ℕ} {x y e : List ℚ}
    {c : List ℕ} (h : ogive values bins = some (x, y, e, c)) :
    ∃ mn mx, values.min? = some mn ∧ values.max? = some mx ∧ bins ≠ 0 ∧
      e = histEdges (outerEdges mn mx).1 (outerEdges mn mx).2 bins ∧
      c = histCounts (outerEdges mn mx).1 (outerEdges mn mx).2 bins values ∧
      x = e.headD 0 :: e.tail ∧
      y = (0 : ℚ) :: (cumsum c).map
        (fun (cc : ℕ) => 100 * (cc : ℚ) / (((cumsum c).getLastD 0 : ℕ) : ℚ)) := by
  rcases hmn : values.min? with _ | mn <;> rcases hmx : values.max? with _ | mx
  · rw [ogive, hmn, hmx] at h; simp at h
  · rw [ogive, hmn, hmx] at h; simp at h
  · rw [ogive, hmn, hmx] at h; simp at h
  by_cases hb : bins = 0
  · rw [ogive, hmn, hmx] at h; simp [hb] at h
  rw [ogive_eq_some bins hmn hmx hb] at h
  simp only [Option.some.injEq, Prod.mk.injEq] at h
  obtain ⟨hx, hy, he, hc⟩ := h
  subst hx hy he hc
  exact ⟨mn, mx, rfl, rfl, hb, rfl, rfl, rfl, rfl⟩

lemma cumsum_length (l : List ℕ) : (cumsum l).length = l.length := by
  simp [cumsum]

lemma cumsum_get (l : List ℕ) (i : ℕ) (h : i < (cumsum l).length) :
    (cumsum l).get ⟨i, h⟩ = (l.take (i + 1)).sum := by
  simp [cumsum, List.get_eq_getElem]

lemma cumsum_getLast? (l : List ℕ) (h : l ≠ []) :
    (cumsum l).getLast? = some l.sum := by
  have hne : cumsum l ≠ [] := by
    intro e
    apply h
    have := cumsum_length l
    rw [e] at this
    exact List.length_eq_zero.1 this.symm
  rw [List.getLast?_eq_getLast _ hne, List.getLast_eq_get]
  have hlen : (cumsum l).length - 1 < (cumsum l).length :=
    Nat.sub_lt (List.length_pos.2 hne) one_pos
  rw [cumsum_get]
  have h1 : (cumsum l).length - 1 + 1 = l.length := by
    have := cumsum_length l
    have : l.length ≠ 0 := fun e => h (List.length_eq_zero.1 e)
    omega
  rw [h1, List.take_length]

lemma cumsum_getLastD (l : List ℕ) (h : l ≠ []) :
    (cumsum l).getLastD 0 = l.sum := by
  simp [List.getLastD_eq_getLast?, cumsum_getLast? l h]

/-- Summing the indicator of a single value over `range k`. -/
lemma sum_indicator_range (k c : ℕ) (hc : c < k) :
    ((List.range k).map (fun i => if c = i then 1 else 0)).sum = 1 := by
  induction k with
  | zero => omega
  | succ k ih =>
      rw [List.range_succ, List.map_append, List.sum_append,
        List.map_cons, List.map_nil, List.sum_cons, List.sum_nil]
      by_cases hck : c < k
      · rw [ih hck, if_neg (by omega : ¬ c = k)]
        omega
      · have hck' : c = k := by omega
        subst hck'
        have hz : ((List.range c).map
            (fun i => if c = i then 1 else 0)).sum = 0 := by
          apply List.sum_eq_zero
          intro x hx
          rcases List.mem_map.1 hx with ⟨i, hi, rfl⟩
          have hic : i < c := List.mem_range.1 hi
          rw [if_neg (by omega : ¬ c = i)]
        rw [hz, if_pos rfl]
        omega

/-- Each element lands in exactly one bin, so the per-bin counts sum to the
list length. -/
lemma sum_map_range_countP (k : ℕ) (l : List ℚ) (f : ℚ → ℕ)
    (h : ∀ v ∈ l, f v < k) :
    ((List.range k).map (fun i => l.countP (fun v => f v == i))).sum
      = l.length := by
  induction l with
  | nil => simp
  | cons a t ih =>
      have ha : f a < k := h a (List.mem_cons_self a t)
      have ht : ∀ v ∈ t, f v < k := fun v hv => h v (List.mem_cons_of_mem _ hv)
      simp only [List.countP_cons, beq_iff_eq]
      have hsplit :
          ((List.range k).map
            (fun i => t.countP (fun v => f v == i)
              + if f a = i then 1 else 0)).sum
          = ((List.range k).map (fun i => t.countP (fun v => f v == i))).sum
            + ((List.range k).map (fun i => if f a = i then 1 else 0)).sum := by
        rw [← List.sum_map_add]
      rw [hsplit, ih ht, sum_indicator_range k (f a) ha]
      simp

/-- The bin index is always below the bin count. -/
lemma binIndex_lt (lo hi : ℚ) (k : ℕ) (v : ℚ) (hk : k ≠ 0) :
    binIndex lo hi k v < k := by
  unfold binIndex
  have := Nat.min_le_right ((v - lo) * (k : ℚ) / (hi - lo)).floor.toNat (k - 1)
  omega

/-- With every value inside `[lo, hi]`, the histogram counts sum to the
sample length. -/
lemma histCounts_sum (lo hi : ℚ) (k : ℕ) (values : List ℚ) (hk : k ≠ 0)
    (h : ∀ v ∈ values, lo ≤ v ∧ v ≤ hi) :
    (histCounts lo hi k values).sum = values.length := by
  unfold histCounts
  have hkept : values.filter (fun v => decide (lo ≤ v) && decide (v ≤ hi))
      = values :=
    List.filter_eq_self.2 (fun a ha => by
      simp only [Bool.and_eq_true, decide_eq_true_eq]
      exact h a ha)
  simp only [hkept]
  exact sum_map_range_countP k values _ (fun v _ => binIndex_lt lo hi k v hk)

/-- numpy's widened range contains every sample value. -/
lemma mem_outer_range {values : List ℚ} {mn mx : ℚ}
    (hmn : values.min? = some mn) (hmx : values.max? = some mx) :
    ∀ v ∈ values, (outerEdges mn mx).1 ≤ v ∧ v ≤ (outerEdges mn mx).2 := by
  intro v hv
  have h1 := (min?_spec hmn).2 v hv
  have h2 := (max?_spec hmx).2 v hv
  unfold outerEdges
  by_cases he : mn = mx <;> simp [he] <;> constructor <;> linarith

/-- For every result `ogive` returns, the counts sum to the sample length. -/
lemma ogive_counts_sum {values : List ℚ} {bins : ℕ} {x y e : List ℚ}
    {c : List ℕ} (h : ogive values bins = some (x, y, e, c)) :
    c.sum = values.length := by
  obtain ⟨mn, mx, hmn, hmx, hb, he, hc, hx, hy⟩ := ogive_some_inv h
  rw [hc]
  exact histCounts_sum _ _ _ _ hb (mem_outer_range hmn hmx)

/-- C2: for every bin count `k ≥ 1` and non-empty sample, `ogive` succeeds
and its bin counts sum to the sample length — every value falls into exactly
one bin. -/
theorem claim_C2 (values : List ℚ) (k : ℕ) (hne : values ≠ []) (hk : 1 ≤ k) :
    ∃ x y e c, ogive values k = some (x, y, e, c) ∧
      c.sum = values.length := by
  obtain ⟨mn, hmn⟩ : ∃ mn, values.min? = some mn := by
    cases values with
    | nil => exact absurd rfl hne
    | cons a t => exact ⟨_, List.min?_cons'⟩
  obtain ⟨mx, hmx⟩ : ∃ mx, values.max? = some mx := by
    cases values with
    | nil => exact absurd rfl hne
    | cons a t => exact ⟨_, List.max?_cons'⟩
  have hog := ogive_eq_some k hmn hmx (by omega)
  exact ⟨_, _, _, _, hog, ogive_counts_sum hog⟩

/-- Witness for C2 at the concrete scenario sample. -/
theorem claim_C2_witness :
    ∃ x y e c, ogive [10, 10, 20, 20, 30, 30, 40, 40] 4 = some (x, y, e, c) ∧
      c.sum = ([10, 10, 20, 20, 30, 30, 40, 40] : List ℚ).length :=
  claim_C2 [10, 10, 20, 20, 30, 30, 40, 40] 4 (by decide) (by decide)

lemma histEdges_length (lo hi : ℚ) (k : ℕ) :
    (histEdges lo hi k).length = k + 1 := by
  unfold histEdges
  rw [List.length_map, List.length_range]

lemma histCounts_length (lo hi : ℚ) (k : ℕ) (values : List ℚ) :
    (histCounts lo hi k values).length = k := by
  unfold histCounts
  rw [List.length_map, List.length_range]

lemma ne_nil_of_min?_eq_some {l : List ℚ} {a : ℚ} (h : l.min? = some a) :
    l ≠ [] := by
  intro e
  rw [e] at h
  simp at h

/-- Rounding the exact value 100 gives 100. -/
lemma np_round2_hundred : np_round2 100 = 100 := by decide

/-- The label column always has one entry per consecutive edge pair. -/
lemma intervalLabels_length (edges : List ℚ) :
    (intervalLabels edges).length = edges.length - 1 := by
  have hbl : ((edges.dropLast.zip edges.tail).map
      (fun p => "[" ++ fmt2 p.1 ++ ", " ++ fmt2 p.2 ++ ")")).length
      = edges.length - 1 := by
    simp [List.length_zip]
  simp only [intervalLabels]
  split
  · exact hbl
  · rename_i hne
    have hpos : 0 < ((edges.dropLast.zip edges.tail).map
        (fun p => "[" ++ fmt2 p.1 ++ ", " ++ fmt2 p.2 ++ ")")).length := by
      refine List.length_pos.2 (fun h => hne ?_)
      rw [h]
      rfl
    rw [List.length_append, List.length_dropLast, hbl]
    rw [hbl] at hpos
    simp
    omega

/-- C9: for binner-produced edges and counts, the frequency table has one row
per bin in bin order (its count column is the counts list itself), the counts
sum to the sample length, the cumulative-count column is the exact unrounded
running sum ending at the sample length, and both percentage columns are the
exact ratios rounded to 2 decimals, the cumulative one ending at 100. -/
theorem claim_C9 (values : List ℚ) (k : ℕ) (x y e : List ℚ) (c : List ℕ)
    (hog : ogive values k = some (x, y, e, c)) :
    ∃ t, frequency_table values e c = some t ∧
      t.intervalo.length = c.length ∧
      t.frecuencia = c ∧
      t.frecuencia.sum = values.length ∧
      t.frecuenciaAcumulada = cumsum c ∧
      t.frecuenciaAcumulada.getLast? = some values.length ∧
      t.frecuenciaRelativa
        = (c.map (fun (cc : ℕ) => (cc : ℚ) / (c.sum : ℚ) * 100)).map np_round2 ∧
      t.acumulado
        = ((cumsum c).map
            (fun (cc : ℕ) => (cc : ℚ) / (c.sum : ℚ) * 100)).map np_round2 ∧
      t.acumulado.getLast? = some 100 := by
  obtain ⟨mn, mx, hmn, hmx, hb, he, hc, hx, hy⟩ := ogive_some_inv hog
  have hel : e.length = k + 1 := by rw [he, histEdges_length]
  have hcl : c.length = k := by rw [hc, histCounts_length]
  have hsum : c.sum = values.length := ogive_counts_sum hog
  have hvne : values ≠ [] := ne_nil_of_min?_eq_some hmn
  have hvpos : 0 < values.length := List.length_pos.2 hvne
  have hcne : c ≠ [] := by
    intro hnil
    rw [hnil] at hcl
    exact hb hcl.symm
  have hqz : ((c.sum : ℕ) : ℚ) ≠ 0 := by
    rw [hsum]
    exact Nat.cast_ne_zero.2 (by omega)
  have hil : (intervalLabels e).length = c.length := by
    rw [intervalLabels_length, hel, hcl]
    omega
  have htab : frequency_table values e c = some
      ⟨intervalLabels e,
       c,
       (c.map (fun (cc : ℕ) => (cc : ℚ) / (c.sum : ℚ) * 100)).map np_round2,
       cumsum c,
       (c.map (fun (cc : ℕ) => (cc : ℚ) / (c.sum : ℚ) * 100)).map np_round2,
       ((cumsum c).map
         (fun (cc : ℕ) => (cc : ℚ) / (c.sum : ℚ) * 100)).map np_round2⟩ := by
    simp only [frequency_table]
    rw [if_pos hil]
  refine ⟨_, htab, hil, rfl, hsum, rfl, ?_, rfl, rfl, ?_⟩
  · rw [cumsum_getLast? c hcne, hsum]
  · rw [List.getLast?_map, List.getLast?_map, cumsum_getLast? c hcne]
    simp only [Option.map_some']
    rw [div_self hqz, one_mul, np_round2_hundred]

/-- Witness for C9 at the concrete scenario. -/
theorem claim_C9_witness :
    ∃ t, frequency_table [10, 10, 20, 20, 30, 30, 40, 40]
        [10, 35/2, 25, 65/2, 40] [2, 2, 2, 2] = some t ∧
      t.intervalo.length = ([2, 2, 2, 2] : List ℕ).length ∧
      t.frecuencia = [2, 2, 2, 2] ∧
      t.frecuencia.sum = ([10, 10, 20, 20, 30, 30, 40, 40] : List ℚ).length ∧
      t.frecuenciaAcumulada = cumsum [2, 2, 2, 2] ∧
      t.frecuenciaAcumulada.getLast?
        = some ([10, 10, 20, 20, 30, 30, 40, 40] : List ℚ).length ∧
      t.frecuenciaRelativa
        = (([2, 2, 2, 2] : List ℕ).map
            (fun (cc : ℕ) =>
              (cc : ℚ) / (([2, 2, 2, 2] : List ℕ).sum : ℚ) * 100)).map
          np_round2 ∧
      t.acumulado
        = ((cumsum [2, 2, 2, 2]).map
            (fun (cc : ℕ) =>
              (cc : ℚ) / (([2, 2, 2, 2] : List ℕ).sum : ℚ) * 100)).map
          np_round2 ∧
      t.acumulado.getLast? = some 100 :=
  claim_C9 [10, 10, 20, 20, 30, 30, 40, 40] 4 [10, 35/2, 25, 65/2, 40]
    [0, 25, 50, 75, 100] [10, 35/2, 25, 65/2, 40] [2, 2, 2, 2] (by decide)

lemma headD_cons_tail {l : List ℚ} (h : l ≠ []) (d : ℚ) :
    l.headD d :: l.tail = l := by
  cases l with
  | nil => exact absurd rfl h
  | cons a t => rfl

lemma headD_eq_get {l : List ℚ} (h : l ≠ []) (d : ℚ) :
    l.headD d = l.get ⟨0, List.length_pos.2 h⟩ := by
  cases l with
  | nil => exact absurd rfl h
  | cons a t => rfl

lemma getLastD_eq_get {l : List ℚ} (h : l ≠ []) (d : ℚ) :
    l.getLastD d
      = l.get ⟨l.length - 1, Nat.sub_lt (List.length_pos.2 h) one_pos⟩ := by
  rw [List.getLastD_eq_getLast?, List.getLast?_eq_getLast _ h]
  rw [Option.getD_some]
  exact List.getLast_eq_get l h

/-- Adjacent monotonicity of a list gives monotonicity of indexing. -/
lemma chain'_le_get_mono {l : List ℚ} (h : l.Chain' (· ≤ ·)) {i j : ℕ}
    (hij : i ≤ j) (hj : j < l.length) :
    l.get ⟨i, lt_of_le_of_lt hij hj⟩ ≤ l.get ⟨j, hj⟩ := by
  have hp : l.Pairwise (· ≤ ·) := List.chain'_iff_pairwise.1 h
  rcases eq_or_lt_of_le hij with rfl | hlt
  · exact le_refl _
  · exact List.pairwise_iff_get.1 hp ⟨i, lt_of_le_of_lt hij hj⟩ ⟨j, hj⟩ hlt

lemma histEdges_get (lo hi : ℚ) (k : ℕ) (i : ℕ)
    (h : i < (histEdges lo hi k).length) :
    (histEdges lo hi k).get ⟨i, h⟩ = lo + (i : ℚ) * ((hi - lo) / k) := by
  simp [histEdges, List.get_eq_getElem]

/-- The edges are non-decreasing for a non-degenerate range. -/
lemma histEdges_chain_le (lo hi : ℚ) (k : ℕ) (hw : lo ≤ hi) :
    (histEdges lo hi k).Chain' (· ≤ ·) := by
  rw [List.chain'_iff_get]
  intro i h2
  rw [histEdges_get, histEdges_get]
  have hk0 : (0 : ℚ) ≤ (hi - lo) / k :=
    div_nonneg (by linarith) (Nat.cast_nonneg k)
  have hle : ((i : ℕ) : ℚ) ≤ ((i + 1 : ℕ) : ℚ) := by push_cast; linarith
  have := mul_le_mul_of_nonneg_right hle hk0
  linarith

/-- The widened range is always non-degenerate in the weak sense. -/
lemma outerEdges_le {values : List ℚ} {mn mx : ℚ}
    (hmn : values.min? = some mn) (hmx : values.max? = some mx) :
    (outerEdges mn mx).1 ≤ (outerEdges mn mx).2 := by
  have h1 : mn ≤ mx := (min?_spec hmn).2 mx (max?_spec hmx).1
  unfold outerEdges
  by_cases he : mn = mx <;> simp [he] <;> linarith

/-- The ascending curve of every successful `ogive` call ends at 100. -/
lemma ogive_y_getLastD {values : List ℚ} {bins : ℕ} {x y e : List ℚ}
    {c : List ℕ} (hog : ogive values bins = some (x, y, e, c)) :
    y.getLastD 0 = 100 := by
  obtain ⟨mn, mx, hmn, hmx, hb, he, hc, hx, hy⟩ := ogive_some_inv hog
  have hcl : c.length = bins := by rw [hc, histCounts_length]
  have hcne : c ≠ [] := by
    intro hnil
    rw [hnil] at hcl
    exact hb hcl.symm
  have hmne : (cumsum c).map
      (fun (cc : ℕ) => 100 * (cc : ℚ) / (((cumsum c).getLastD 0 : ℕ) : ℚ))
      ≠ [] := by
    intro h0
    have := congrArg List.length h0
    rw [List.length_map, cumsum_length] at this
    exact hcne (List.length_eq_zero.1 this)
  have hsq : ((c.sum : ℕ) : ℚ) ≠ 0 := by
    rw [ogive_counts_sum hog]
    have := List.length_pos.2 (ne_nil_of_min?_eq_some hmn)
    exact Nat.cast_ne_zero.2 (by omega)
  rw [hy, List.getLastD_cons, List.getLastD_eq_getLast?, List.getLast?_map,
    cumsum_getLast? c hcne]
  simp only [Option.map_some', Option.getD_some]
  rw [cumsum_getLastD c hcne, mul_div_assoc, div_self hsq, mul_one]

/-- Running sums of a zero-sum list of naturals are all zero. -/
lemma cumsum_of_sum_zero {l : List ℕ} (h : l.sum = 0) :
    cumsum l = List.replicate l.length 0 := by
  refine List.eq_replicate_iff.2 ⟨cumsum_length l, ?_⟩
  intro b hb
  rcases List.mem_map.1 hb with ⟨i, hi, rfl⟩
  apply List.sum_eq_zero
  intro x hx
  exact List.sum_eq_zero_iff.1 h x (List.mem_of_mem_take hx)

/-- C3 (amended): the normalization division is not guarded.  When the bin
counts sum to 0 (so every count is 0), `ogive_inverse` still returns a curve,
whose whole normalized y-core consists of non-finite floats (`none`), with
the explicit trailing 0; no invalid-input failure is reported. -/
theorem claim_C3 (counts : List ℕ) (edges : List ℚ) (xg : List ℚ)
    (yg : List (Option ℚ)) (h0 : counts.sum = 0)
    (hog : ogive_inverse counts edges = some (xg, yg)) :
    yg = List.replicate counts.length none ++ [some 0] := by
  unfold ogive_inverse at hog
  by_cases hemp : counts.isEmpty ∨ edges.isEmpty
  · rw [if_pos hemp] at hog
    exact absurd hog (by simp)
  rw [if_neg hemp] at hog
  simp only [Option.some.injEq, Prod.mk.injEq] at hog
  have hrev : (cumsum counts.reverse).reverse
      = List.replicate counts.length 0 := by
    have hs : counts.reverse.sum = 0 := by rw [List.sum_reverse]; exact h0
    rw [cumsum_of_sum_zero hs, List.length_reverse, List.reverse_replicate]
  have hy := hog.2
  rw [hrev] at hy
  rw [← hy]
  congr 1
  rw [List.map_replicate]
  congr 1
  have hhead : (List.replicate counts.length (0 : ℕ)).headD 0 = 0 := by
    cases counts.length <;> rfl
  rw [hhead]
  unfold npDiv
  rw [if_pos]
  exact Nat.cast_zero

/-- Witness for C3 (amended) at counts `[0]`, edges `[0, 1]`. -/
theorem claim_C3_witness :
    [none, some (0 : ℚ)]
      = List.replicate ([0] : List ℕ).length none ++ [some 0] :=
  claim_C3 [0] [0, 1] [0, 1] [none, some 0] (by decide) (by decide)

/-- C4 (amended): `interp_value_at` delegates to numpy's ascending-table
interpolation; on a lookup table whose last entry is 0 — the descending
curve — every percentile `p > 0` takes the above-range clamp and the last
x-value is returned, not the interpolated one. -/
theorem claim_C4 (x_plot y_plot : List ℚ) (p : ℚ) (hne : y_plot ≠ [])
    (hlen : x_plot.length = y_plot.length) (hlast : y_plot.getLastD 0 = 0)
    (hp : 0 < p) :
    interp_value_at p x_plot y_plot = some (x_plot.getLastD 0) := by
  have h1 : ¬ (y_plot.length = 0 ∨ x_plot.length ≠ y_plot.length) := by
    rw [not_or]
    exact ⟨fun h0 => hne (List.length_eq_zero.1 h0), fun h2 => h2 hlen⟩
  have h2 : y_plot.getLastD 0 < p := by rw [hlast]; exact hp
  unfold interp_value_at np_interp
  rw [if_neg h1, if_pos h2]

/-- Witness for C4 (amended) on the concrete descending curve. -/
theorem claim_C4_witness :
    interp_value_at 50 [10, 35/2, 25, 65/2, 40] [100, 75, 50, 25, 0]
      = some (([10, 35/2, 25, 65/2, 40] : List ℚ).getLastD 0) :=
  claim_C4 [10, 35/2, 25, 65/2, 40] [100, 75, 50, 25, 0] 50
    (by decide) (by decide) (by decide) (by decide)

/-- C5: on the ascending curve of any successful `ogive` call, a query
strictly below the first edge interpolates to 0 and a query strictly above
the last edge interpolates to 100 — out-of-range queries are clamped to the
boundary values. -/
theorem claim_C5 (values : List ℚ) (k : ℕ) (x y e : List ℚ) (c : List ℕ)
    (hog : ogive values k = some (x, y, e, c)) :
    (∀ q, q < e.headD 0 → interp_percentile_at q x y = some 0) ∧
    (∀ q, e.getLastD 0 < q → interp_percentile_at q x y = some 100) := by
  obtain ⟨mn, mx, hmn, hmx, hb, he, hc, hx, hy⟩ := ogive_some_inv hog
  have hel : e.length = k + 1 := by rw [he, histEdges_length]
  have hene : e ≠ [] := by
    intro h0
    rw [h0] at hel
    simp at hel
  have hxe : x = e := by rw [hx, headD_cons_tail hene]
  have hyl : y.length = k + 1 := by
    rw [hy]
    simp only [List.length_cons, List.length_map, cumsum_length]
    rw [hc, histCounts_length]
  have hlen : ¬ (x.length = 0 ∨ y.length ≠ x.length) := by
    rw [not_or]
    constructor
    · rw [hxe, hel]
      omega
    · intro hne2
      rw [hxe, hel, hyl] at hne2
      exact hne2 rfl
  have hchain : x.Chain' (· ≤ ·) := by
    rw [hxe, he]
    exact histEdges_chain_le _ _ _ (outerEdges_le hmn hmx)
  have hxne : x ≠ [] := by
    rw [hxe]
    exact hene
  have hhl : x.headD 0 ≤ x.getLastD 0 := by
    rw [headD_eq_get hxne, getLastD_eq_get hxne]
    exact chain'_le_get_mono hchain (by omega)
      (Nat.sub_lt (List.length_pos.2 hxne) one_pos)
  have hyhead : y.headD 0 = 0 := by rw [hy]; rfl
  have hylast : y.getLastD 0 = 100 := ogive_y_getLastD hog
  constructor
  · intro q hq
    rw [← hxe] at hq
    have hq2 : ¬ x.getLastD 0 < q := by
      push_neg
      calc q ≤ x.headD 0 := le_of_lt hq
        _ ≤ x.getLastD 0 := hhl
    unfold interp_percentile_at np_interp
    rw [if_neg hlen, if_neg hq2, if_pos hq, hyhead]
  · intro q hq
    rw [← hxe] at hq
    unfold interp_percentile_at np_interp
    rw [if_neg hlen, if_pos hq, hylast]

/-- Witness for C5 at the concrete scenario, queries 5 and 45. -/
theorem claim_C5_witness :
    interp_percentile_at 5 [10, 35/2, 25, 65/2, 40] [0, 25, 50, 75, 100]
        = some 0 ∧
    interp_percentile_at 45 [10, 35/2, 25, 65/2, 40] [0, 25, 50, 75, 100]
        = some 100 :=
  ⟨(claim_C5 [10, 10, 20, 20, 30, 30, 40, 40] 4 [10, 35/2, 25, 65/2, 40]
      [0, 25, 50, 75, 100] [10, 35/2, 25, 65/2, 40] [2, 2, 2, 2]
      (by decide)).1 5 (by decide),
   (claim_C5 [10, 10, 20, 20, 30, 30, 40, 40] 4 [10, 35/2, 25, 65/2, 40]
      [0, 25, 50, 75, 100] [10, 35/2, 25, 65/2, 40] [2, 2, 2, 2]
      (by decide)).2 45 (by decide)⟩

/-- Running sums are non-decreasing. -/
lemma cumsum_chain_le (l : List ℕ) : (cumsum l).Chain' (· ≤ ·) := by
  rw [List.chain'_iff_get]
  intro i h2
  rw [cumsum_get, cumsum_get]
  conv_rhs => rw [List.take_succ]
  rw [List.sum_append]
  exact Nat.le_add_right _ _

lemma getLast?_eq_getLastD {α : Type*} {l : List α} (h : l ≠ []) (d : α) :
    l.getLast? = some (l.getLastD d) := by
  rw [List.getLastD_eq_getLast?, List.getLast?_eq_getLast _ h, Option.getD_some]

lemma isEmpty_false_of_ne_nil {α : Type*} {l : List α} (h : l ≠ []) :
    l.isEmpty = false := by
  cases l with
  | nil => exact absurd rfl h
  | cons a t => rfl

/-- Unfolding `ogive_inverse` on nonempty inputs. -/
lemma ogive_inverse_eq_some (counts : List ℕ) (edges : List ℚ)
    (hc : counts ≠ []) (he : edges ≠ []) :
    ogive_inverse counts edges = some
      (edges.dropLast ++ [edges.getLastD 0],
       ((cumsum counts.reverse).reverse.map
         (fun (c : ℕ) => npDiv (100 * (c : ℚ))
           (((cumsum counts.reverse).reverse.headD 0 : ℕ) : ℚ))) ++ [some 0]) := by
  have h : ¬ (counts.isEmpty = true ∨ edges.isEmpty = true) := by
    rw [not_or, isEmpty_false_of_ne_nil hc, isEmpty_false_of_ne_nil he]
    exact ⟨Bool.false_ne_true, Bool.false_ne_true⟩
  unfold ogive_inverse
  rw [if_neg h]

/-- The head of the reverse cumulative sums is the total. -/
lemma rev_cum_head? (counts : List ℕ) (hc : counts ≠ []) :
    (cumsum counts.reverse).reverse.head? = some counts.sum := by
  have hrne : counts.reverse ≠ [] := by
    intro h0
    apply hc
    simpa using congrArg List.reverse h0
  rw [List.head?_reverse, cumsum_getLast? _ hrne, List.sum_reverse]

lemma rev_cum_headD (counts : List ℕ) (hc : counts ≠ []) :
    (cumsum counts.reverse).reverse.headD 0 = counts.sum := by
  rw [List.headD_eq_head?_getD, rev_cum_head? counts hc, Option.getD_some]

/-- The reverse cumulative sums are non-increasing. -/
lemma rev_cum_chain_ge (counts : List ℕ) :
    ((cumsum counts.reverse).reverse).Chain' (fun a b => b ≤ a) := by
  rw [List.chain'_reverse]
  exact (cumsum_chain_le _).imp (fun a b h => h)

/-- C1: for a non-empty sample with distinct minimum and maximum and a
positive bin count, the ascending curve's y-values are non-decreasing from 0
to 100, and the descending curve's y-values are (finite and) non-increasing
from 100 to 0. -/
theorem claim_C1 (values : List ℚ) (k : ℕ) (mn mx : ℚ)
    (hmn : values.min? = some mn) (hmx : values.max? = some mx)
    (hnd : mn ≠ mx) (hk : 1 ≤ k) :
    ∃ x y e c xg yg, ∃ ys : List ℚ,
      ogive values k = some (x, y, e, c) ∧
      ogive_inverse c e = some (xg, yg) ∧
      y.Chain' (· ≤ ·) ∧ y.head? = some 0 ∧ y.getLast? = some 100 ∧
      yg = ys.map some ∧ ys.Chain' (fun a b => b ≤ a) ∧
      ys.head? = some 100 ∧ ys.getLast? = some 0 := by
  have hb : k ≠ 0 := by omega
  have hog := ogive_eq_some k hmn hmx hb
  set e := histEdges (outerEdges mn mx).1 (outerEdges mn mx).2 k with hE
  set c := histCounts (outerEdges mn mx).1 (outerEdges mn mx).2 k values
    with hC
  have hcl : c.length = k := by rw [hC]; exact histCounts_length _ _ _ _
  have hel : e.length = k + 1 := by rw [hE]; exact histEdges_length _ _ _
  have hcne : c ≠ [] := by
    intro h0
    rw [h0] at hcl
    exact hb hcl.symm
  have hene : e ≠ [] := by
    intro h0
    rw [h0] at hel
    simp at hel
  have hsum : c.sum = values.length := ogive_counts_sum hog
  have hvne : values ≠ [] := ne_nil_of_min?_eq_some hmn
  have hTpos : (0 : ℚ) < ((c.sum : ℕ) : ℚ) := by
    rw [hsum]
    exact_mod_cast List.length_pos.2 hvne
  have hTne : ((c.sum : ℕ) : ℚ) ≠ 0 := ne_of_gt hTpos
  have hden : (((cumsum c).getLastD 0 : ℕ) : ℚ) = ((c.sum : ℕ) : ℚ) := by
    rw [cumsum_getLastD c hcne]
  have hrden : (((cumsum c.reverse).reverse.headD 0 : ℕ) : ℚ)
      = ((c.sum : ℕ) : ℚ) := by
    rw [rev_cum_headD c hcne]
  have hinv := ogive_inverse_eq_some c e hcne hene
  refine ⟨_, _, _, _, _, _,
    (cumsum c.reverse).reverse.map
      (fun (cc : ℕ) => 100 * (cc : ℚ) / ((c.sum : ℕ) : ℚ)) ++ [(0 : ℚ)],
    hog, hinv, ?_, ?_, ?_, ?_, ?_, ?_, ?_⟩
  · rw [List.chain'_cons']
    constructor
    · intro z hz
      rw [List.head?_map] at hz
      rcases hh : (cumsum c).head? with _ | a
      · rw [hh] at hz
        simp at hz
      · rw [hh] at hz
        simp only [Option.map_some', Option.mem_def, Option.some.injEq] at hz
        rw [← hz, hden]
        positivity
    · rw [List.chain'_map]
      refine (cumsum_chain_le c).imp ?_
      intro a b hab
      show 100 * (a : ℚ) / _ ≤ 100 * (b : ℚ) / _
      rw [hden]
      refine (div_le_div_right hTpos).2 ?_
      have : (a : ℚ) ≤ (b : ℚ) := Nat.cast_le.2 hab
      linarith
  · rfl
  · rw [getLast?_eq_getLastD (List.cons_ne_nil _ _) 0]
    exact congrArg some (ogive_y_getLastD hog)
  · rw [List.map_append, List.map_map]
    congr 1
    apply List.map_congr_left
    intro a _
    simp only [Function.comp_apply]
    unfold npDiv
    rw [hrden, if_neg hTne]
  · rw [List.chain'_append]
    refine ⟨?_, List.chain'_singleton _, ?_⟩
    · rw [List.chain'_map]
      refine (rev_cum_chain_ge c).imp ?_
      intro a b hba
      show 100 * (b : ℚ) / _ ≤ 100 * (a : ℚ) / _
      refine (div_le_div_right hTpos).2 ?_
      have : (b : ℚ) ≤ (a : ℚ) := Nat.cast_le.2 hba
      linarith
    · intro z hz w hw
      simp only [List.head?_cons, Option.mem_def, Option.some.injEq] at hw
      rw [List.getLast?_map] at hz
      rcases hl : (cumsum c.reverse).reverse.getLast? with _ | a
      · rw [hl] at hz
        simp at hz
      · rw [hl] at hz
        simp only [Option.map_some', Option.mem_def, Option.some.injEq] at hz
        rw [← hz, ← hw]
        positivity
  · rw [List.head?_append, List.head?_map, rev_cum_head? c hcne]
    simp only [Option.map_some', Option.or_some]
    rw [mul_div_assoc, div_self hTne, mul_one]
  · exact List.getLast?_concat _

/-- Witness for C1 at the concrete scenario. -/
theorem claim_C1_witness :
    ∃ x y e c xg yg, ∃ ys : List ℚ,
      ogive [10, 10, 20, 20, 30, 30, 40, 40] 4 = some (x, y, e, c) ∧
      ogive_inverse c e = some (xg, yg) ∧
      y.Chain' (· ≤ ·) ∧ y.head? = some 0 ∧ y.getLast? = some 100 ∧
      yg = ys.map some ∧ ys.Chain' (fun a b => b ≤ a) ∧
      ys.head? = some 100 ∧ ys.getLast? = some 0 :=
  claim_C1 [10, 10, 20, 20, 30, 30, 40, 40] 4 10 40 (by decide) (by decide)
    (by decide) (by decide)

lemma getD_eq_get' {l : List ℚ} {n : ℕ} (h : n < l.length) (d : ℚ) :
    l.getD n d = l.get ⟨n, h⟩ := by
  rw [List.getD_eq_getElem?_getD, List.getElem?_eq_getElem h, Option.getD_some,
    List.get_eq_getElem]

/-- Length of the maximal satisfying prefix, characterized by a failure index:
if the first `i + 1` entries satisfy `p` and the entry after them (when it
exists) does not, the `takeWhile` prefix has length `i + 1`. -/
lemma length_takeWhile_eq (p : ℚ → Bool) :
    ∀ (xs : List ℚ) (i : ℕ), i < xs.length →
      (∀ m (hm : m < xs.length), m ≤ i → p (xs.get ⟨m, hm⟩) = true) →
      (∀ hm : i + 1 < xs.length, p (xs.get ⟨i + 1, hm⟩) = false) →
      (xs.takeWhile p).length = i + 1
  | [], i, hlt, _, _ => absurd hlt (by simp)
  | a :: xs, i, hlt, hall, hfail => by
      have hpa : p a = true := hall 0 (by simp) (Nat.zero_le i)
      rw [List.takeWhile_cons, if_pos hpa, List.length_cons]
      cases i with
      | zero =>
          cases xs with
          | nil => rfl
          | cons b t =>
              have hf : p b = false := hfail (by simp)
              rw [List.takeWhile_cons, if_neg (by simp [hf]), List.length_nil]
      | succ i2 =>
          have hlen : i2 < xs.length := by
            have := hlt
            simp only [List.length_cons] at this
            omega
          have hall2 : ∀ m (hm : m < xs.length), m ≤ i2 →
              p (xs.get ⟨m, hm⟩) = true := by
            intro m hm hmi
            have hm2 : m + 1 < (a :: xs).length := by simp; omega
            have := hall (m + 1) hm2 (by omega)
            rwa [List.get_cons_succ] at this
          have hfail2 : ∀ hm : i2 + 1 < xs.length,
              p (xs.get ⟨i2 + 1, hm⟩) = false := by
            intro hm
            have hm2 : i2 + 1 + 1 < (a :: xs).length := by simp; omega
            have := hfail hm2
            rwa [List.get_cons_succ] at this
          rw [length_takeWhile_eq p xs i2 hlen hall2 hfail2]

/-- Evaluation of `np_interp` on the segment `[xp i, xp (i+1))` of a
non-decreasing table: the standard linear-interpolation formula (an exact hit
on the left node agrees with the formula). -/
lemma np_interp_segment (xp fp : List ℚ) (key : ℚ) (i : ℕ)
    (hlen : fp.length = xp.length)
    (hmono : xp.Chain' (· ≤ ·))
    (hilt : i + 1 < xp.length)
    (h1 : xp.get ⟨i, by omega⟩ ≤ key)
    (h2 : key < xp.get ⟨i + 1, hilt⟩) :
    np_interp key xp fp = some (fp.get ⟨i, by omega⟩ +
      (fp.get ⟨i + 1, by omega⟩ - fp.get ⟨i, by omega⟩) *
        (key - xp.get ⟨i, by omega⟩) /
        (xp.get ⟨i + 1, hilt⟩ - xp.get ⟨i, by omega⟩)) := by
  have hxne : xp ≠ [] := by
    intro h0
    rw [h0] at hilt
    simp at hilt
  have hc1 : ¬ (xp.length = 0 ∨ fp.length ≠ xp.length) := by
    rw [not_or]
    exact ⟨by omega, fun h => h hlen⟩
  have hlastge : xp.get ⟨i + 1, hilt⟩ ≤ xp.getLastD 0 := by
    rw [getLastD_eq_get hxne]
    exact chain'_le_get_mono hmono (by omega) _
  have hnc2 : ¬ (xp.getLastD 0 < key) :=
    not_lt.2 (le_trans (le_of_lt h2) hlastge)
  have hnc3 : ¬ (key < xp.headD 0) := by
    refine not_lt.2 (le_trans ?_ h1)
    rw [headD_eq_get hxne]
    exact chain'_le_get_mono hmono (Nat.zero_le i) (by omega)
  have hTW : (xp.takeWhile (fun t => decide (t ≤ key))).length = i + 1 := by
    refine length_takeWhile_eq _ xp i (by omega) ?_ ?_
    · intro m hm hmi
      exact decide_eq_true
        (le_trans (chain'_le_get_mono hmono hmi (by omega)) h1)
    · intro hm
      exact decide_eq_false (not_le.2 h2)
  unfold np_interp
  rw [if_neg hc1, if_neg hnc2, if_neg hnc3]
  simp only [hTW, Nat.add_sub_cancel]
  rw [if_neg (by omega : ¬ i = xp.length - 1)]
  rw [getD_eq_get' (by omega : i < xp.length) 0,
    getD_eq_get' (by omega : i + 1 < xp.length) 0,
    getD_eq_get' (by omega : i < fp.length) 0,
    getD_eq_get' (by omega : i + 1 < fp.length) 0]
  by_cases hx : xp.get ⟨i, by omega⟩ = key
  · rw [if_pos hx, hx, sub_self, mul_zero, zero_div, add_zero]
  · rw [if_neg hx]

/-- Evaluation of `np_interp` exactly at the last node of a non-decreasing
table: the last value of `fp` is returned. -/
lemma np_interp_at_last (xp fp : List ℚ) (hxne : xp ≠ [])
    (hlen : fp.length = xp.length) (hmono : xp.Chain' (· ≤ ·)) :
    np_interp (xp.getLastD 0) xp fp = some (fp.getLastD 0) := by
  have hfne : fp ≠ [] := by
    intro h0
    rw [h0] at hlen
    exact hxne (List.length_eq_zero.1 hlen.symm)
  have hc1 : ¬ (xp.length = 0 ∨ fp.length ≠ xp.length) := by
    rw [not_or]
    refine ⟨fun h0 => hxne (List.length_eq_zero.1 h0), fun h => h hlen⟩
  have hnc2 : ¬ (xp.getLastD 0 < xp.getLastD 0) := lt_irrefl _
  have hnc3 : ¬ (xp.getLastD 0 < xp.headD 0) := by
    refine not_lt.2 ?_
    rw [headD_eq_get hxne, getLastD_eq_get hxne]
    exact chain'_le_get_mono hmono (Nat.zero_le _)
      (Nat.sub_lt (List.length_pos.2 hxne) one_pos)
  have hTW : xp.takeWhile (fun t => decide (t ≤ xp.getLastD 0)) = xp := by
    refine List.takeWhile_eq_self_iff.2 ?_
    intro a ha
    rcases List.mem_iff_get.1 ha with ⟨idx, rfl⟩
    refine decide_eq_true ?_
    rw [getLastD_eq_get hxne]
    exact chain'_le_get_mono hmono (by omega)
      (Nat.sub_lt (List.length_pos.2 hxne) one_pos)
  have hfpos := List.length_pos.2 hfne
  unfold np_interp
  rw [if_neg hc1, if_neg hnc2, if_neg hnc3]
  simp only [hTW, if_true]
  rw [← hlen, getD_eq_get' (by omega : fp.length - 1 < fp.length) 0,
    getLastD_eq_get hfne]

lemma outerEdges_of_ne {mn mx : ℚ} (h : mn ≠ mx) :
    outerEdges mn mx = (mn, mx) := by
  unfold outerEdges
  rw [if_neg h]

lemma getLastD_eq_get_of_length {l : List ℚ} {n : ℕ} (h : l.length = n + 1)
    (d : ℚ) : l.getLastD d = l.get ⟨n, by omega⟩ := by
  have hne : l ≠ [] := by
    intro h0
    rw [h0] at h
    simp at h
  rw [getLastD_eq_get hne d]
  congr 1
  exact Fin.ext (by simp [h])

lemma cumsum_getElem (l : List ℕ) (i : ℕ) (h : i < (cumsum l).length) :
    (cumsum l)[i] = (l.take (i + 1)).sum := by
  simp [cumsum]

/-- Index formula for the ascending curve's y-list: entry `j` is the sum of
the first `j` counts as a percentage of the total. -/
lemma ogive_y_get (c : List ℕ) (j : ℕ)
    (hj : j < ((0 : ℚ) :: (cumsum c).map
      (fun (cc : ℕ) =>
        100 * (cc : ℚ) / (((cumsum c).getLastD 0 : ℕ) : ℚ))).length) :
    ((0 : ℚ) :: (cumsum c).map
      (fun (cc : ℕ) =>
        100 * (cc : ℚ) / (((cumsum c).getLastD 0 : ℕ) : ℚ))).get ⟨j, hj⟩
      = 100 * (((c.take j).sum : ℕ) : ℚ)
        / (((cumsum c).getLastD 0 : ℕ) : ℚ) := by
  cases j with
  | zero => simp
  | succ j2 =>
      have hj2 : j2 < (cumsum c).length := by
        simp only [List.length_cons, List.length_map] at hj
        omega
      simp only [List.get_eq_getElem, List.getElem_cons_succ, List.getElem_map]
      rw [cumsum_getElem c j2 hj2]

/-- The ascending y-list of `ogive` is non-decreasing. -/
lemma ogive_y_chain_le (c : List ℕ) (hT : (0 : ℚ) < ((c.sum : ℕ) : ℚ))
    (hcne : c ≠ []) :
    ((0 : ℚ) :: (cumsum c).map
      (fun (cc : ℕ) =>
        100 * (cc : ℚ) / (((cumsum c).getLastD 0 : ℕ) : ℚ))).Chain'
      (· ≤ ·) := by
  have hden : (((cumsum c).getLastD 0 : ℕ) : ℚ) = ((c.sum : ℕ) : ℚ) := by
    rw [cumsum_getLastD c hcne]
  rw [List.chain'_cons']
  constructor
  · intro z hz
    rw [List.head?_map] at hz
    rcases hh : (cumsum c).head? with _ | a
    · rw [hh] at hz
      simp at hz
    · rw [hh] at hz
      simp only [Option.map_some', Option.mem_def, Option.some.injEq] at hz
      rw [← hz, hden]
      positivity
  · rw [List.chain'_map]
    refine (cumsum_chain_le c).imp ?_
    intro a b hab
    show 100 * (a : ℚ) / _ ≤ 100 * (b : ℚ) / _
    rw [hden]
    refine (div_le_div_right hT).2 ?_
    have : (a : ℚ) ≤ (b : ℚ) := Nat.cast_le.2 hab
    linarith

/-- The round trip through `np_interp` is exact on a segment where both
tables strictly increase. -/
lemma round_trip_segment (xs ys : List ℚ) (v : ℚ) (i : ℕ)
    (hlen : ys.length = xs.length)
    (hxmono : xs.Chain' (· ≤ ·)) (hymono : ys.Chain' (· ≤ ·))
    (hilt : i + 1 < xs.length)
    (hx1 : xs.get ⟨i, by omega⟩ ≤ v) (hx2 : v < xs.get ⟨i + 1, hilt⟩)
    (hdy : ys.get ⟨i, by omega⟩ < ys.get ⟨i + 1, by omega⟩) :
    ∃ p, np_interp v xs ys = some p ∧ np_interp p ys xs = some v := by
  have hilt2 : i + 1 < ys.length := by omega
  have hdx : xs.get ⟨i, by omega⟩ < xs.get ⟨i + 1, hilt⟩ :=
    lt_of_le_of_lt hx1 hx2
  have hΔx : (0 : ℚ) < xs.get ⟨i + 1, hilt⟩ - xs.get ⟨i, by omega⟩ :=
    sub_pos.2 hdx
  have hΔy : (0 : ℚ) < ys.get ⟨i + 1, hilt2⟩ - ys.get ⟨i, by omega⟩ :=
    sub_pos.2 hdy
  have hfwd := np_interp_segment xs ys v i hlen hxmono hilt hx1 hx2
  refine ⟨_, hfwd, ?_⟩
  have hy1 : ys.get ⟨i, by omega⟩ ≤ ys.get ⟨i, by omega⟩ +
      (ys.get ⟨i + 1, hilt2⟩ - ys.get ⟨i, by omega⟩) *
        (v - xs.get ⟨i, by omega⟩) /
        (xs.get ⟨i + 1, hilt⟩ - xs.get ⟨i, by omega⟩) := by
    refine le_add_of_nonneg_right ?_
    refine div_nonneg (mul_nonneg (le_of_lt hΔy) ?_) (le_of_lt hΔx)
    linarith
  have hy2 : ys.get ⟨i, by omega⟩ +
      (ys.get ⟨i + 1, hilt2⟩ - ys.get ⟨i, by omega⟩) *
        (v - xs.get ⟨i, by omega⟩) /
        (xs.get ⟨i + 1, hilt⟩ - xs.get ⟨i, by omega⟩)
      < ys.get ⟨i + 1, hilt2⟩ := by
    have hq : (v - xs.get ⟨i, by omega⟩) /
        (xs.get ⟨i + 1, hilt⟩ - xs.get ⟨i, by omega⟩) < 1 :=
      (div_lt_one hΔx).2 (by linarith)
    have := mul_lt_mul_of_pos_left hq hΔy
    rw [mul_one] at this
    rw [mul_div_assoc]
    linarith
  have hbwd := np_interp_segment ys xs _ i hlen.symm hymono hilt2 hy1 hy2
  rw [hbwd]
  have hABne : xs.get ⟨i, by omega⟩ ≠ xs.get ⟨i + 1, hilt⟩ := ne_of_lt hdx
  have hCDne : ys.get ⟨i, by omega⟩ ≠ ys.get ⟨i + 1, hilt2⟩ := ne_of_lt hdy
  have key : ∀ (a b c0 d0 : ℚ), a ≠ b → c0 ≠ d0 →
      a + (b - a) * ((c0 + (d0 - c0) * (v - a) / (b - a)) - c0) / (d0 - c0)
        = v := by
    intro a b c0 d0 hAB hCD
    have hBA : b - a ≠ 0 := sub_ne_zero.2 (Ne.symm hAB)
    have hDC : d0 - c0 ≠ 0 := sub_ne_zero.2 (Ne.symm hCD)
    field_simp
    ring
  exact congrArg some (key _ _ _ _ hABne hCDne)

/-- C8 (amended): on the ascending curve of a sample with distinct minimum
and maximum in which every bin receives at least one value, the round trip
value → percentile → value is exact for every `v` in the sample range, so in
particular it differs from `v` by at most one bin width. -/
theorem claim_C8 (values : List ℚ) (k : ℕ) (mn mx : ℚ) (x y e : List ℚ)
    (c : List ℕ) (v : ℚ)
    (hmn : values.min? = some mn) (hmx : values.max? = some mx)
    (hnd : mn ≠ mx)
    (hog : ogive values k = some (x, y, e, c))
    (hpos : ∀ ci ∈ c, 0 < ci)
    (hv1 : mn ≤ v) (hv2 : v ≤ mx) :
    ∃ p v2, interp_percentile_at v x y = some p ∧
      interp_value_at p x y = some v2 ∧ |v2 - v| ≤ (mx - mn) / k := by
  obtain ⟨mn2, mx2, hmn2, hmx2, hb, he, hc, hx, hy⟩ := ogive_some_inv hog
  rw [hmn] at hmn2
  rw [hmx] at hmx2
  obtain rfl : mn = mn2 := Option.some.inj hmn2
  obtain rfl : mx = mx2 := Option.some.inj hmx2
  subst hx hy he hc
  simp only [outerEdges_of_ne hnd] at hog hpos ⊢
  have hene : histEdges mn mx k ≠ [] := by
    intro h0
    have h1 := histEdges_length mn mx k
    rw [h0] at h1
    simp at h1
  rw [headD_cons_tail hene]
  rw [headD_cons_tail hene] at hog
  set C := histCounts mn mx k values with hCdef
  set E := histEdges mn mx k with hEdef
  set Y : List ℚ := (0 : ℚ) :: (cumsum C).map
    (fun (cc : ℕ) => 100 * (cc : ℚ) / (((cumsum C).getLastD 0 : ℕ) : ℚ))
    with hYdef
  have hkq : (0 : ℚ) < (k : ℚ) := by
    exact_mod_cast Nat.pos_of_ne_zero hb
  have hlt : mn < mx :=
    lt_of_le_of_ne ((min?_spec hmn).2 mx (max?_spec hmx).1) hnd
  have hwpos : (0 : ℚ) < (mx - mn) / k := div_pos (by linarith) hkq
  have hvne : values ≠ [] := ne_nil_of_min?_eq_some hmn
  have hEl : E.length = k + 1 := by rw [hEdef]; exact histEdges_length _ _ _
  have hCl : C.length = k := by rw [hCdef]; exact histCounts_length _ _ _ _
  have hCne : C ≠ [] := by
    intro h0
    rw [h0] at hCl
    exact hb hCl.symm
  have hYl : Y.length = k + 1 := by
    rw [hYdef]
    simp only [List.length_cons, List.length_map, cumsum_length, hCl]
  have hYne : Y ≠ [] := by rw [hYdef]; exact List.cons_ne_nil _ _
  have hsum : C.sum = values.length := ogive_counts_sum hog
  have hTpos : (0 : ℚ) < ((C.sum : ℕ) : ℚ) := by
    rw [hsum]
    exact_mod_cast List.length_pos.2 hvne
  have hden : (((cumsum C).getLastD 0 : ℕ) : ℚ) = ((C.sum : ℕ) : ℚ) := by
    rw [cumsum_getLastD C hCne]
  have hEget : ∀ (j : ℕ) (hj : j < E.length),
      E.get ⟨j, hj⟩ = mn + (j : ℚ) * ((mx - mn) / k) := by
    rw [hEdef]
    exact fun j hj => histEdges_get mn mx k j hj
  have hYget : ∀ (j : ℕ) (hj : j < Y.length),
      Y.get ⟨j, hj⟩ = 100 * (((C.take j).sum : ℕ) : ℚ)
        / (((cumsum C).getLastD 0 : ℕ) : ℚ) := by
    rw [hYdef]
    exact fun j hj => ogive_y_get C j hj
  have hEmono : E.Chain' (· ≤ ·) := by
    rw [hEdef]
    exact histEdges_chain_le _ _ _ (le_of_lt hlt)
  have hYmono : Y.Chain' (· ≤ ·) := by
    rw [hYdef]
    exact ogive_y_chain_le C hTpos hCne
  have hElast : E.getLastD 0 = mx := by
    rw [getLastD_eq_get_of_length hEl 0, hEget k (by omega)]
    field_simp
  simp only [interp_percentile_at, interp_value_at]
  rcases lt_or_eq_of_le hv2 with hvlt | hveq
  · -- v strictly below the top edge: interior segment
    have hr0 : 0 ≤ (v - mn) / ((mx - mn) / k) :=
      div_nonneg (by linarith) (le_of_lt hwpos)
    have hfl0 : (0 : ℤ) ≤ ⌊(v - mn) / ((mx - mn) / k)⌋ := Int.floor_nonneg.2 hr0
    have hrk : (v - mn) / ((mx - mn) / k) < (k : ℚ) := by
      rw [div_lt_iff hwpos]
      have hk1 : (k : ℚ) * ((mx - mn) / k) = mx - mn := by
        field_simp
      rw [hk1]
      linarith
    have hflk : ⌊(v - mn) / ((mx - mn) / k)⌋ < (k : ℤ) :=
      Int.floor_lt.2 (by exact_mod_cast hrk)
    set i := (⌊(v - mn) / ((mx - mn) / k)⌋).toNat with hidef
    have hik : i < k := by omega
    have hicast : ((i : ℕ) : ℚ) = ((⌊(v - mn) / ((mx - mn) / k)⌋ : ℤ) : ℚ) := by
      exact_mod_cast congrArg (fun z : ℤ => (z : ℚ)) (Int.toNat_of_nonneg hfl0)
    have hrmul : (v - mn) / ((mx - mn) / k) * ((mx - mn) / k) = v - mn :=
      div_mul_cancel₀ _ (ne_of_gt hwpos)
    have hibound : mn + (i : ℚ) * ((mx - mn) / k) ≤ v := by
      have h1 : ((i : ℕ) : ℚ) ≤ (v - mn) / ((mx - mn) / k) := by
        rw [hicast]
        exact Int.floor_le _
      have h2 := mul_le_mul_of_nonneg_right h1 (le_of_lt hwpos)
      rw [hrmul] at h2
      linarith
    have hibound2 : v < mn + ((i + 1 : ℕ) : ℚ) * ((mx - mn) / k) := by
      have h1 : (v - mn) / ((mx - mn) / k) < ((i : ℕ) : ℚ) + 1 := by
        rw [hicast]
        exact Int.lt_floor_add_one _
      have h2 := mul_lt_mul_of_pos_right h1 hwpos
      rw [hrmul] at h2
      push_cast
      linarith
    have hiE : i + 1 < E.length := by omega
    have hiY : i + 1 < Y.length := by omega
    have hx1 : E.get ⟨i, by omega⟩ ≤ v := by
      rw [hEget i (by omega)]
      exact hibound
    have hx2 : v < E.get ⟨i + 1, hiE⟩ := by
      rw [hEget (i + 1) hiE]
      exact hibound2
    have hbound : i < C.length := by omega
    have hstep := List.sum_take_succ C i hbound
    have hci := hpos _ (List.getElem_mem hbound)
    have hdy : Y.get ⟨i, by omega⟩ < Y.get ⟨i + 1, hiY⟩ := by
      rw [hYget i (by omega), hYget (i + 1) hiY, hden]
      refine (div_lt_div_right hTpos).2 ?_
      have hnat : (C.take i).sum < (C.take (i + 1)).sum := by omega
      have hq : (((C.take i).sum : ℕ) : ℚ) < (((C.take (i + 1)).sum : ℕ) : ℚ) := by
        exact_mod_cast hnat
      linarith
    obtain ⟨p, hfwd, hbwd⟩ :=
      round_trip_segment E Y v i (by omega) hEmono hYmono hiE hx1 hx2 hdy
    refine ⟨p, v, hfwd, hbwd, ?_⟩
    rw [sub_self, abs_zero]
    exact le_of_lt hwpos
  · -- v is exactly the top edge
    refine ⟨Y.getLastD 0, E.getLastD 0, ?_, ?_, ?_⟩
    · have h1 := np_interp_at_last E Y hene (by omega) hEmono
      rw [hElast] at h1
      rw [hveq]
      exact h1
    · exact np_interp_at_last Y E hYne (by omega) hYmono
    · rw [hElast, hveq, sub_self, abs_zero]
      exact le_of_lt hwpos

/-- Witness for C8 (amended) at the concrete scenario, `v = 20`. -/
theorem claim_C8_witness :
    ∃ p v2,
      interp_percentile_at 20 [10, 35/2, 25, 65/2, 40] [0, 25, 50, 75, 100]
        = some p ∧
      interp_value_at p [10, 35/2, 25, 65/2, 40] [0, 25, 50, 75, 100]
        = some v2 ∧
      |v2 - 20| ≤ (40 - 10) / 4 :=
  claim_C8 [10, 10, 20, 20, 30, 30, 40, 40] 4 10 40 [10, 35/2, 25, 65/2, 40]
    [0, 25, 50, 75, 100] [10, 35/2, 25, 65/2, 40] [2, 2, 2, 2] 20
    (by decide) (by decide) (by decide) (by decide) (by decide) (by decide)
    (by decide)

/-- C6: the concrete scenario.  Sample `[10,10,20,20,30,30,40,40]` with 4
bins gives edges `[10, 17.5, 25, 32.5, 40]`, counts `[2,2,2,2]`, ascending
y `[0,25,50,75,100]`, descending y `[100,75,50,25,0]`; the percentile at 25
is 50 and the value at percentile 50 is 25. -/
theorem claim_C6 :
    ogive [10, 10, 20, 20, 30, 30, 40, 40] 4 =
      some ([10, 35/2, 25, 65/2, 40], [0, 25, 50, 75, 100],
            [10, 35/2, 25, 65/2, 40], [2, 2, 2, 2]) ∧
    ogive_inverse [2, 2, 2, 2] [10, 35/2, 25, 65/2, 40] =
      some ([10, 35/2, 25, 65/2, 40],
            [some 100, some 75, some 50, some 25, some 0]) ∧
    interp_percentile_at 25 [10, 35/2, 25, 65/2, 40] [0, 25, 50, 75, 100] =
      some 50 ∧
    interp_value_at 50 [10, 35/2, 25, 65/2, 40] [0, 25, 50, 75, 100] =
      some 25 := by
  decide

/-- C7: on the all-equal sample `[50, 50, 50]` with 5 bins, `ogive` returns
normally — no division by zero and no zero-width bin: numpy's degenerate
range fallback widens the range by 0.5 on each side, visible in the returned
edges `[49.5, 49.7, 49.9, 50.1, 50.3, 50.5]`. -/
theorem claim_C7 :
    ogive [50, 50, 50] 5 =
      some ([99/2, 497/10, 499/10, 501/10, 503/10, 101/2],
            [0, 0, 0, 100, 100, 100],
            [99/2, 497/10, 499/10, 501/10, 503/10, 101/2],
            [0, 0, 3, 0, 0]) := by
  decide

/-- C10: the output of `frequency_table` depends only on its `edges` and
`counts` arguments; the `values` parameter is never read. -/
theorem claim_C10 (v1 v2 edges : List ℚ) (counts : List ℕ) :
    frequency_table v1 edges counts = frequency_table v2 edges counts := rfl

/-- C3 counterexample: with bin counts summing to 0, `ogive_inverse` does not
guard the normalization and does not report a failure: it returns a curve
whose normalized y-entry is a non-finite float (`none`). -/
theorem claim_C3_cex :
    ([0] : List ℕ).sum = 0 ∧
    ogive_inverse [0] [0, 1] = some ([0, 1], [none, some 0]) := by
  decide

/-- C4 counterexample: on the descending curve of the concrete scenario
(x `[10,17.5,25,32.5,40]`, y `[100,75,50,25,0]`), at percentile 50 the
implementation returns 40 — numpy's above-range clamp on a table it assumes
ascending — while correct interpolation of the non-increasing table (the
spec's reverse-then-look-up reference) gives 25. -/
theorem claim_C4_cex :
    interp_value_at 50 [10, 35/2, 25, 65/2, 40] [100, 75, 50, 25, 0] =
      some 40 ∧
    interp_value_at_desc 50 [10, 35/2, 25, 65/2, 40] [100, 75, 50, 25, 0] =
      some 25 ∧
    some (40 : ℚ) ≠ some (25 : ℚ) := by
  decide

/-- C8 counterexample: the sample `[0, 5]` with 5 bins has empty middle bins,
so the ascending curve has a plateau `y = 50` spanning them; the round trip
moves `v = 1` to `4`, three bin widths away, violating the one-bin-width
bound. -/
theorem claim_C8_cex :
    ogive [0, 5] 5 =
      some ([0, 1, 2, 3, 4, 5], [0, 50, 50, 50, 50, 100],
            [0, 1, 2, 3, 4, 5], [1, 0, 0, 0, 1]) ∧
    interp_percentile_at 1 [0, 1, 2, 3, 4, 5] [0, 50, 50, 50, 50, 100] =
      some 50 ∧
    interp_value_at 50 [0, 1, 2, 3, 4, 5] [0, 50, 50, 50, 50, 100] =
      some 4 ∧
    ¬ (|(4 : ℚ) - 1| ≤ (5 - 0) / 5) := by
  decide

end Proofs

end OgiveSim
